import Mathlib

open scoped List

/-!
Verification of the SubDomainFinder repository (two scripts: `subfinder.js`
alias `src/unnamed/part_000`, and `src/subdomain.js`).

The scripts are embedded shallowly:

* JavaScript `Set` insertion (`subs.add`, `ips.add`) is modelled by `setAdd`,
  which appends an element only when it is not already present, so the final
  spread `[...set]` is the insertion-ordered duplicate-free list.
* Each DNS strategy call (`dns.lookup`, `dns.resolve4`, `dns.resolve6`) either
  yields a list of address strings or throws; an outcome is therefore an
  oracle value of type `Except String (List String)`, and the `try {} catch {}`
  around each call is the total function `stratAddrs` which turns a thrown
  error into no contributed addresses.
* The HTTP fetch of crt.sh either throws (network error, non-2xx, body that is
  not JSON) or yields parsed JSON data; `FetchResp` enumerates those cases,
  with the parsed data being either a JSON array of records (each carrying an
  optional `name_value` string) or some non-array value.
* `concurrencyMap` is an async function whose workers race over a shared
  cursor; it is modelled as a small-step transition system `SchedStep` below.
-/

/-! ## JavaScript Set, modelled as an insertion-ordered duplicate-free list -/

/-- `setAdd l x` models `set.add(x)` on a JavaScript `Set` whose elements in
insertion order are `l`: adding an element already present is a no-op,
otherwise the element goes to the back. -/
def setAdd (l : List String) (x : String) : List String :=
  if x ∈ l then l else l ++ [x]

theorem mem_setAdd {x a : String} {l : List String} :
    x ∈ setAdd l a ↔ x ∈ l ∨ x = a := by
  unfold setAdd
  split
  · rename_i h
    exact ⟨Or.inl, fun hor => hor.elim id (fun hx => hx ▸ h)⟩
  · simp [List.mem_append]

theorem mem_foldl_setAdd (l : List String) :
    ∀ (init : List String) (x : String),
      x ∈ l.foldl setAdd init ↔ x ∈ init ∨ x ∈ l := by
  induction l with
  | nil => intro init x; simp
  | cons a t ih =>
    intro init x
    rw [List.foldl_cons, ih]
    simp only [mem_setAdd, List.mem_cons]
    tauto

theorem nodup_foldl_setAdd (l : List String) :
    ∀ init : List String, init.Nodup → (l.foldl setAdd init).Nodup := by
  induction l with
  | nil => intro init h; simpa using h
  | cons a t ih =>
    intro init h
    rw [List.foldl_cons]
    apply ih
    unfold setAdd
    split
    · exact h
    · rename_i ha
      simp [List.nodup_append, h, ha]

/-! ## Name normalization

`subfinder.js` (part_000), inside `fetchSubdomains`, processes each candidate
line `n` as

  n = n.trim().replace(/^\*\./, "");
  if (n.endsWith(domain)) subs.add(n.toLowerCase());

`subdomain.js`, inside its `fetchSubdomains`, processes each line `sub` as

  sub = sub.trim().toLowerCase();
  if (sub && sub.endsWith(domain)) subs.add(sub);

(`sub &&` is the JavaScript truthiness test, i.e. the string is nonempty).
Each is embedded as a function returning `some` accepted canonical hostname or
`none` for a rejected line.

The JavaScript string primitives `trim`, `toLowerCase`, `startsWith`,
`endsWith` and the 2-character cut performed by `replace(/^\*\./, "")` are
implemented structurally over the character list of the string (the core
library versions use well-founded byte-position loops that the kernel cannot
evaluate). -/

/-- JavaScript `String.prototype.trim`: drop whitespace at both ends. -/
def jsTrim (s : String) : String :=
  ⟨(((s.data.dropWhile Char.isWhitespace).reverse).dropWhile Char.isWhitespace).reverse⟩

/-- JavaScript `String.prototype.toLowerCase` (ASCII case mapping). -/
def jsToLower (s : String) : String :=
  ⟨s.data.map Char.toLower⟩

/-- JavaScript `String.prototype.startsWith`. -/
def jsStartsWith (s pat : String) : Bool :=
  pat.data.isPrefixOf s.data

/-- JavaScript `String.prototype.endsWith`. -/
def jsEndsWith (s pat : String) : Bool :=
  pat.data.isSuffixOf s.data

/-- Dropping the first `n` characters of a string (the effect of
`replace(/^\*\./, "")` once the leading `"*."` has been detected). -/
def jsDrop (s : String) (n : Nat) : String :=
  ⟨s.data.drop n⟩

/-- Per-line normalization of `subfinder.js` (part_000, lines 40-41):
trim, strip one leading wildcard marker, suffix-test, lowercase on accept. -/
def normalizeSubfinder (raw domain : String) : Option String :=
  let n := jsTrim raw
  let n := if jsStartsWith n "*." then jsDrop n 2 else n
  if jsEndsWith n domain then some (jsToLower n) else none

/-- Per-line normalization of `subdomain.js` (lines 55-56):
trim, lowercase, nonemptiness plus suffix test.  No wildcard handling. -/
def normalizeDomainjs (raw domain : String) : Option String :=
  let s := jsToLower (jsTrim raw)
  if s ≠ "" && jsEndsWith s domain then some s else none

/-! ## Hostname resolver (`resolveHost`, part_000 lines 54-75)

  const ips = new Set();
  try { const lookup = await dns.lookup(host, { all: true });
        for (const r of lookup) ips.add(r.address); } catch {}
  try { const a = await dns.resolve4(host); for (const ip of a) ips.add(ip); } catch {}
  try { const aaaa = await dns.resolve6(host); for (const ip of aaaa) ips.add(ip); } catch {}
  return [...ips];

The three strategy outcomes are oracle parameters. -/

/-- The addresses a strategy contributes: its list on success, nothing when it
threw (the enclosing `try {} catch {}` swallows the error). -/
def stratAddrs : Except String (List String) → List String
  | .ok ips => ips
  | .error _ => []

/-- Shallow embedding of `resolveHost`, parameterized by the outcome of each
of the three strategy calls for the given hostname. -/
def resolveHost (lu r4 r6 : Except String (List String)) : List String :=
  let ips0 : List String := []
  let ips1 := (stratAddrs lu).foldl setAdd ips0
  let ips2 := (stratAddrs r4).foldl setAdd ips1
  let ips3 := (stratAddrs r6).foldl setAdd ips2
  ips3

/-! ## crt.sh fetch (`fetchSubdomains` in both scripts) -/

/-- Parsed JSON body of the crt.sh response: either an array of records, each
with an optional `name_value` field, or some non-array JSON value. -/
inductive JsData where
  | arr (entries : List (Option String))
  | nonArray

/-- Outcome of the `axios.get` call: `failure` covers a network error, a
non-2xx status and an unparsable body (all of which throw), `success` carries
the parsed data. -/
inductive FetchResp where
  | failure
  | success (data : JsData)

/-- One iteration of the outer `for (const entry of res.data)` loop of
part_000: split `entry.name_value || ""` on newlines and add every accepted
normalized name to the set. -/
def addNames (domain : String) (acc : List String) (nv : Option String) : List String :=
  ((nv.getD "").splitOn "\n").foldl
    (fun acc2 n =>
      match normalizeSubfinder n domain with
      | some host => setAdd acc2 host
      | none => acc2)
    acc

/-- Shallow embedding of part_000's `fetchSubdomains` (lines 27-51).  The
`catch` branch returns `[]`; a non-array body skips the loop and sorts the
still-empty set; an array body is folded through `addNames` and the resulting
set is spread and sorted (`[...subs].sort()`). -/
def fetchSubdomains (domain : String) (resp : FetchResp) : List String :=
  match resp with
  | .failure => []
  | .success .nonArray => List.insertionSort (fun a b : String => a ≤ b) []
  | .success (.arr entries) =>
      List.insertionSort (fun a b : String => a ≤ b) (entries.foldl (addNames domain) [])

/-- Shallow embedding of `subdomain.js`'s `fetchSubdomains` (lines 46-64).
A non-array body makes the `for..of` loop (or the `.split` on an undefined
`name_value`) throw inside the `try`, so the `catch` returns `[]`; likewise a
missing `name_value` field on any row aborts the whole loop via the `catch`.
On the clean path the set is returned in insertion order (no sort). -/
def fetchSubdomainsD (domain : String) (resp : FetchResp) : List String :=
  match resp with
  | .failure => []
  | .success .nonArray => []
  | .success (.arr entries) =>
      if entries.all Option.isSome then
        entries.foldl
          (fun acc nv =>
            ((nv.getD "").splitOn "\n").foldl
              (fun a s =>
                match normalizeDomainjs s domain with
                | some h => setAdd a h
                | none => a)
              acc)
          []
      else []

/-! ## Claim theorems for the normalizer, resolver and fetch -/

/-- Claim C1: the claim demands label-boundary suffix matching, but both
scripts test the bare `endsWith(domain)`, so the concatenation
`"evil" ++ domain` with no separating dot is accepted by both normalizers.
This theorem evaluates the code at the claim's own failing input. -/
theorem normalize_accepts_evil_concat :
    normalizeSubfinder "evilexample.com" "example.com" = some "evilexample.com"
    ∧ normalizeDomainjs "evilexample.com" "example.com" = some "evilexample.com" := by
  constructor <;> decide

/-- Claim C4: part_000 strips exactly one leading wildcard marker before the
suffix check so the base domain is contributed, but `subdomain.js` performs no
wildcard stripping at all and keeps `"*.example.com"` as a literal candidate.
This theorem evaluates both normalizers at the failing input. -/
theorem wildcard_kept_literal_domainjs :
    normalizeDomainjs "*.example.com" "example.com" = some "*.example.com"
    ∧ normalizeSubfinder "*.example.com" "example.com" = some "example.com" := by
  constructor <;> decide

/-- Claim C7: an upstream query failure (network error, non-2xx status,
unparsable body — all of which throw into the `catch`) and a well-formed but
non-array JSON body both degrade to an empty candidate list in both scripts;
both embedded fetch functions are total, so no exception propagates. -/
theorem fetch_failure_empty (domain : String) :
    fetchSubdomains domain .failure = []
    ∧ fetchSubdomains domain (.success .nonArray) = []
    ∧ fetchSubdomainsD domain .failure = []
    ∧ fetchSubdomainsD domain (.success .nonArray) = [] :=
  ⟨rfl, rfl, rfl, rfl⟩

/-- Claim C3: `resolveHost` returns exactly the union of the addresses
contributed by the three strategies (a strategy that threw contributes
nothing and does not disturb the others), the result is deduplicated by
address string, and when every strategy fails the result is the explicit
empty list. -/
theorem resolveHost_spec (lu r4 r6 : Except String (List String)) :
    (∀ x, x ∈ resolveHost lu r4 r6 ↔
        x ∈ stratAddrs lu ∨ x ∈ stratAddrs r4 ∨ x ∈ stratAddrs r6)
    ∧ (resolveHost lu r4 r6).Nodup
    ∧ (∀ e₁ e₂ e₃, lu = .error e₁ → r4 = .error e₂ → r6 = .error e₃ →
        resolveHost lu r4 r6 = []) := by
  refine ⟨?_, ?_, ?_⟩
  · intro x
    simp only [resolveHost, mem_foldl_setAdd, List.not_mem_nil]
    tauto
  · exact nodup_foldl_setAdd _ _ (nodup_foldl_setAdd _ _
      (nodup_foldl_setAdd _ _ List.nodup_nil))
  · intro e₁ e₂ e₃ h₁ h₂ h₃
    subst h₁; subst h₂; subst h₃
    rfl

/-- Witness for C3 at the spec's concrete scenario: the generic lookup found
an IPv4 address, the explicit IPv4 query failed, the IPv6 query found an
address; and the all-strategies-fail case gives the empty list. -/
theorem resolveHost_spec_witness :
    ("93.184.216.34" ∈ resolveHost (Except.ok ["93.184.216.34"])
        (Except.error "ENODATA") (Except.ok ["2606:2800:220:1:248:1893:25c8:1946"]))
    ∧ resolveHost (Except.error "a") (Except.error "b") (Except.error "c") = [] := by
  constructor
  · exact ((resolveHost_spec _ _ _).1 _).mpr (Or.inl (by simp [stratAddrs]))
  · exact (resolveHost_spec _ _ _).2.2 "a" "b" "c" rfl rfl rfl

/-! ## Bounded concurrency scheduler (`concurrencyMap`, part_000 lines 78-98)

  async function concurrencyMap(items, mapper, concurrency = 10) {
    const out = [];
    let index = 0;
    const workers = Array.from({ length: concurrency }, async () => {
      while (true) {
        const i = index++;
        if (i >= items.length) return;
        const item = items[i];
        try { const result = await mapper(item); out.push({ item, result }); }
        catch (err) { out.push({ item, error: err }); }
      }
    });
    await Promise.all(workers);
    return out;
  }

The `concurrency` workers race over the shared cursor `index`.  Node's
single-threaded event loop makes the read-and-increment of `index` atomic, so
the model is a small-step transition system: a worker is `ready` when it is at
the top of its loop, `inflight i` while it awaits `mapper(items[i])`, and
`finished` once it has returned.  `claim` covers the synchronous block from
`index++` up to the `await`; `complete` covers the resumption that pushes the
outcome record; `exitStep` covers the synchronous `index++` followed by the
bound check failing.  The model allows every interleaving of these blocks, a
superset of the schedules the event loop can produce.

The outcome of `mapper items[i]` is an oracle `f : Nat → MOutcome`; a pushed
record `{item, result}` / `{item, error}` is determined by its index, so the
state stores the indices of pushed records in push order and `outRecs`
materializes the record list. -/

/-- The outcome of one `mapper` call as `concurrencyMap` records it: either
the fulfilled `result` value or the caught `error`. -/
inductive MOutcome where
  | result (ips : List String)
  | error (msg : String)
deriving DecidableEq

/-- One element of `concurrencyMap`'s `out` array: the originating item
together with its outcome. -/
structure OutRec where
  item : String
  out : MOutcome
deriving DecidableEq

/-- The phase a single worker closure is in. -/
inductive WStatus where
  | ready
  | inflight (i : Nat)
  | finished
deriving DecidableEq

/-- `WStatus.inflightIdx st` is the index a worker is awaiting, if any. -/
def WStatus.inflightIdx : WStatus → Option Nat
  | .inflight i => some i
  | _ => none

/-- Scheduler state: the shared cursor `index`, the status of each of the
`concurrency` workers, and the indices of the records pushed to `out`, in
push order. -/
structure SchedState where
  idx : Nat
  workers : List WStatus
  out : List Nat
deriving DecidableEq

/-- Small-step semantics of the worker loops of `concurrencyMap` over
`N = items.length` items. -/
inductive SchedStep (N : Nat) : SchedState → SchedState → Prop where
  | claim (l₁ l₂ : List WStatus) (idx : Nat) (out : List Nat) (h : idx < N) :
      SchedStep N ⟨idx, l₁ ++ WStatus.ready :: l₂, out⟩
        ⟨idx + 1, l₁ ++ WStatus.inflight idx :: l₂, out⟩
  | exitStep (l₁ l₂ : List WStatus) (idx : Nat) (out : List Nat) (h : N ≤ idx) :
      SchedStep N ⟨idx, l₁ ++ WStatus.ready :: l₂, out⟩
        ⟨idx + 1, l₁ ++ WStatus.finished :: l₂, out⟩
  | complete (l₁ l₂ : List WStatus) (i : Nat) (idx : Nat) (out : List Nat) :
      SchedStep N ⟨idx, l₁ ++ WStatus.inflight i :: l₂, out⟩
        ⟨idx, l₁ ++ WStatus.ready :: l₂, out ++ [i]⟩

/-- Initial state: cursor at `0`, `K` workers at the top of their loop,
nothing pushed. -/
def initState (K : Nat) : SchedState :=
  ⟨0, List.replicate K WStatus.ready, []⟩

/-- The states `concurrencyMap` with `K` workers over `N` items can reach. -/
abbrev Reachable (N K : Nat) (s : SchedState) : Prop :=
  Relation.ReflTransGen (SchedStep N) (initState K) s

/-- `Promise.all(workers)` has resolved: every worker has returned. -/
def Final (s : SchedState) : Prop :=
  ∀ st ∈ s.workers, st = WStatus.finished

/-- The indices currently being awaited by some worker. -/
def inflightIndices (s : SchedState) : List Nat :=
  s.workers.filterMap WStatus.inflightIdx

/-- The contents of the `out` array: for each pushed index `i`, the record
tagging `items[i]` with the outcome `f i` of its `mapper` call. -/
def outRecs (items : List String) (f : Nat → MOutcome) (s : SchedState) : List OutRec :=
  s.out.map (fun i => ⟨items.getD i "", f i⟩)

/-- Inductive invariant of the scheduler: the pushed and in-flight indices
are, together, a permutation of the claimed indices `0 .. min idx N - 1`;
a worker only finishes after the cursor has passed `N`; and the worker count
is constant. -/
def SchedInv (N K : Nat) (s : SchedState) : Prop :=
  (s.out ++ inflightIndices s).Perm (List.range (min s.idx N))
  ∧ (WStatus.finished ∈ s.workers → N ≤ s.idx)
  ∧ s.workers.length = K

theorem filterMap_inflightIdx_replicate (K : Nat) :
    (List.replicate K WStatus.ready).filterMap WStatus.inflightIdx = [] := by
  induction K with
  | zero => rfl
  | succ n ih => simp [List.replicate_succ, List.filterMap_cons, WStatus.inflightIdx, ih]

theorem schedInv_init (N K : Nat) : SchedInv N K (initState K) := by
  refine ⟨?_, ?_, ?_⟩
  · show (([] : List Nat) ++ inflightIndices (initState K)).Perm (List.range (min 0 N))
    rw [show inflightIndices (initState K) = [] from filterMap_inflightIdx_replicate K]
    simp
  · intro hmem
    have h2 : WStatus.finished = WStatus.ready := List.eq_of_mem_replicate hmem
    exact WStatus.noConfusion h2
  · simp [initState]

theorem schedInv_step {N K : Nat} {s t : SchedState}
    (hinv : SchedInv N K s) (hstep : SchedStep N s t) : SchedInv N K t := by
  obtain ⟨hperm, hfin, hlen⟩ := hinv
  cases hstep with
  | claim l₁ l₂ idx out h =>
    refine ⟨?_, ?_, ?_⟩
    · simp only [inflightIndices, List.filterMap_append, List.filterMap_cons,
        WStatus.inflightIdx] at hperm ⊢
      rw [Nat.min_eq_left (Nat.le_of_lt h)] at hperm
      rw [Nat.min_eq_left h, List.range_succ]
      calc out ++ (l₁.filterMap WStatus.inflightIdx ++ idx :: l₂.filterMap WStatus.inflightIdx)
          = (out ++ l₁.filterMap WStatus.inflightIdx) ++ idx :: l₂.filterMap WStatus.inflightIdx := by
            rw [List.append_assoc]
        _ ~ idx :: ((out ++ l₁.filterMap WStatus.inflightIdx) ++ l₂.filterMap WStatus.inflightIdx) :=
            List.perm_middle
        _ = idx :: (out ++ (l₁.filterMap WStatus.inflightIdx ++ l₂.filterMap WStatus.inflightIdx)) := by
            rw [List.append_assoc]
        _ ~ idx :: List.range idx := hperm.cons idx
        _ ~ List.range idx ++ [idx] := (List.perm_append_singleton idx _).symm
    · intro hmem
      have hold : WStatus.finished ∈ l₁ ++ WStatus.ready :: l₂ := by
        simp only [List.mem_append, List.mem_cons] at hmem ⊢
        rcases hmem with h₁ | h₁ | h₁
        · exact Or.inl h₁
        · exact WStatus.noConfusion h₁
        · exact Or.inr (Or.inr h₁)
      exact Nat.le_succ_of_le (hfin hold)
    · simpa using hlen
  | exitStep l₁ l₂ idx out h =>
    refine ⟨?_, ?_, ?_⟩
    · simp only [inflightIndices, List.filterMap_append, List.filterMap_cons,
        WStatus.inflightIdx] at hperm ⊢
      rw [Nat.min_eq_right h] at hperm
      rw [Nat.min_eq_right (Nat.le_succ_of_le h)]
      exact hperm
    · intro _
      exact Nat.le_succ_of_le h
    · simpa using hlen
  | complete l₁ l₂ i idx out =>
    refine ⟨?_, ?_, ?_⟩
    · simp only [inflightIndices, List.filterMap_append, List.filterMap_cons,
        WStatus.inflightIdx] at hperm ⊢
      calc (out ++ [i]) ++ (l₁.filterMap WStatus.inflightIdx ++ l₂.filterMap WStatus.inflightIdx)
          = out ++ (i :: (l₁.filterMap WStatus.inflightIdx ++ l₂.filterMap WStatus.inflightIdx)) := by
            rw [List.append_assoc]; rfl
        _ ~ out ++ (l₁.filterMap WStatus.inflightIdx ++ i :: l₂.filterMap WStatus.inflightIdx) :=
            List.Perm.append_left out List.perm_middle.symm
        _ ~ List.range (min idx N) := hperm
    · intro hmem
      apply hfin
      simp only [List.mem_append, List.mem_cons] at hmem ⊢
      rcases hmem with h₁ | h₁ | h₁
      · exact Or.inl h₁
      · exact WStatus.noConfusion h₁
      · exact Or.inr (Or.inr h₁)
    · simpa using hlen

theorem schedInv_of_reachable {N K : Nat} {s : SchedState}
    (h : Reachable N K s) : SchedInv N K s := by
  induction h with
  | refl => exact schedInv_init N K
  | tail _ hstep ih => exact schedInv_step ih hstep

/-- In a final state reached with at least one worker, every index below `N`
has been pushed exactly once: `out` is a permutation of `range N`. -/
theorem out_perm_of_final {N K : Nat} {s : SchedState}
    (hinv : SchedInv N K s) (hf : Final s) (hK : 1 ≤ K) :
    s.out.Perm (List.range N) := by
  obtain ⟨hperm, hfin, hlen⟩ := hinv
  have hne : s.workers ≠ [] := by
    intro h
    rw [h] at hlen
    simp at hlen
    omega
  obtain ⟨st, hst⟩ := List.exists_mem_of_ne_nil _ hne
  have hmem : WStatus.finished ∈ s.workers := (hf st hst) ▸ hst
  have hidx : N ≤ s.idx := hfin hmem
  have hinfl : inflightIndices s = [] := by
    apply List.filterMap_eq_nil_iff.mpr
    intro st' hst'
    rw [hf st' hst']
    rfl
  rw [hinfl, List.append_nil, Nat.min_eq_right hidx] at hperm
  exact hperm

/-- Claim C2: for `N` hostnames and any concurrency limit `K` with
`1 ≤ K ≤ N`, every final state of `concurrencyMap` holds exactly `N` outcome
records — one per input index, each tagging its originating hostname with the
outcome of its single `mapper` invocation (the record multiset is exactly
`{⟨items[i], f i⟩ : i < N}`, so the resolver ran exactly once per hostname,
however many calls failed). -/
theorem concurrencyMap_completes (items : List String) (f : Nat → MOutcome)
    (K : Nat) (hK : 1 ≤ K) (_hKN : K ≤ items.length) (s : SchedState)
    (hr : Reachable items.length K s) (hf : Final s) :
    (outRecs items f s).Perm
      ((List.range items.length).map (fun i => ⟨items.getD i "", f i⟩))
    ∧ (outRecs items f s).length = items.length := by
  have hperm := out_perm_of_final (schedInv_of_reachable hr) hf hK
  constructor
  · exact hperm.map _
  · have := hperm.length_eq
    simpa [outRecs] using this

/-- A 3-step execution with one worker and one hostname, used to discharge
the reachability hypotheses of the scheduler theorems at a concrete input:
claim index 0, complete it, observe the exhausted cursor and finish. -/
theorem reach_one : Reachable 1 1 ⟨2, [WStatus.finished], [0]⟩ := by
  have s1 : SchedStep 1 (initState 1) ⟨1, [WStatus.inflight 0], []⟩ :=
    SchedStep.claim [] [] 0 [] (by decide)
  have s2 : SchedStep 1 ⟨1, [WStatus.inflight 0], []⟩ ⟨1, [WStatus.ready], [0]⟩ :=
    SchedStep.complete [] [] 0 1 []
  have s3 : SchedStep 1 ⟨1, [WStatus.ready], [0]⟩ ⟨2, [WStatus.finished], [0]⟩ :=
    SchedStep.exitStep [] [] 1 [0] (by decide)
  exact ((Relation.ReflTransGen.refl.tail s1).tail s2).tail s3

/-- Witness for C2: the concrete execution of `reach_one` with item
`"a.example.com"` yields exactly one record, tagged with that hostname. -/
theorem concurrencyMap_completes_witness :
    (outRecs ["a.example.com"] (fun _ => MOutcome.result ["93.184.216.34"])
        ⟨2, [WStatus.finished], [0]⟩).Perm
      ((List.range (["a.example.com"] : List String).length).map
        (fun i => ⟨(["a.example.com"] : List String).getD i "",
          (fun _ => MOutcome.result ["93.184.216.34"]) i⟩))
    ∧ (outRecs ["a.example.com"] (fun _ => MOutcome.result ["93.184.216.34"])
        ⟨2, [WStatus.finished], [0]⟩).length = (["a.example.com"] : List String).length :=
  concurrencyMap_completes ["a.example.com"] (fun _ => MOutcome.result ["93.184.216.34"])
    1 (by decide) (by decide) ⟨2, [WStatus.finished], [0]⟩ reach_one
    (by intro st hst; simpa using hst)

/-- Claim C8: in every reachable state of `concurrencyMap` the in-flight
`mapper` invocations are pairwise distinct claims and number at most `K`:
never more than `K` resolutions are outstanding simultaneously. -/
theorem concurrencyMap_bounded (N K : Nat) (s : SchedState)
    (hr : Reachable N K s) :
    (inflightIndices s).length ≤ K ∧ (inflightIndices s).Nodup := by
  obtain ⟨hperm, _, hlen⟩ := schedInv_of_reachable hr
  constructor
  · calc (inflightIndices s).length ≤ s.workers.length :=
        List.length_filterMap_le _ _
      _ = K := hlen
  · have hnd : (s.out ++ inflightIndices s).Nodup :=
      hperm.nodup_iff.mpr (List.nodup_range _)
    exact hnd.of_append_right

/-- Witness for C8 at the mid-execution state of the one-item run, where the
single permitted invocation is in flight. -/
theorem concurrencyMap_bounded_witness :
    (inflightIndices ⟨1, [WStatus.inflight 0], []⟩).length ≤ 1
    ∧ (inflightIndices ⟨1, [WStatus.inflight 0], []⟩).Nodup :=
  concurrencyMap_bounded 1 1 ⟨1, [WStatus.inflight 0], []⟩
    (Relation.ReflTransGen.refl.tail (SchedStep.claim [] [] 0 [] (by decide)))

/-- The mapper `main` passes to `concurrencyMap`: `resolveHost`, which never
rejects, so every outcome is a fulfilled `result`. -/
def resolveMapper (lu r4 r6 : Nat → Except String (List String)) : Nat → MOutcome :=
  fun i => MOutcome.result (resolveHost (lu i) (r4 i) (r6 i))

/-- Claim C10: `resolveHost` is total — each strategy call is individually
guarded, so it always fulfills with an (possibly empty) address list — hence
when the scheduler runs with `resolveHost` as the mapper, the `catch` branch
of `concurrencyMap` never fires: every record of every reachable state
carries a `result` field, never an `error` field. -/
theorem concurrencyMap_no_error_branch (items : List String) (K : Nat)
    (lu r4 r6 : Nat → Except String (List String)) (s : SchedState)
    (_hr : Reachable items.length K s) :
    ∀ rec ∈ outRecs items (resolveMapper lu r4 r6) s,
      ∃ ips, rec.out = MOutcome.result ips := by
  intro rec hrec
  rcases List.mem_map.mp (by simpa [outRecs] using hrec) with ⟨i, _, rfl⟩
  exact ⟨resolveHost (lu i) (r4 i) (r6 i), rfl⟩

/-- Witness for C10: the single record of the concrete one-item run carries a
`result` field. -/
theorem concurrencyMap_no_error_branch_witness :
    ∃ ips, (OutRec.mk "a.example.com"
      (resolveMapper (fun _ => Except.ok ["93.184.216.34"])
        (fun _ => Except.error "ENODATA") (fun _ => Except.error "ENODATA") 0)).out
      = MOutcome.result ips :=
  concurrencyMap_no_error_branch ["a.example.com"] 1
    (fun _ => Except.ok ["93.184.216.34"])
    (fun _ => Except.error "ENODATA") (fun _ => Except.error "ENODATA")
    ⟨2, [WStatus.finished], [0]⟩ reach_one
    (OutRec.mk "a.example.com"
      (resolveMapper (fun _ => Except.ok ["93.184.216.34"])
        (fun _ => Except.error "ENODATA") (fun _ => Except.error "ENODATA") 0))
    (List.Mem.head _)

/-! ## Result aggregation (`main`, part_000 lines 114-125)

  let count = 0;
  for (const { item, result } of resolved.sort((a, b) => a.item.localeCompare(b.item))) {
    if (result && result.length > 0) { ...print item and each ip...; count++; }
  }
  ...print subdomains.length and count...

`Array.prototype.sort` with a comparator is a stable sort (ECMAScript 2019),
modelled by `List.insertionSort` on the item field; `localeCompare` on the
all-ASCII lowercase hostnames produced by the pipeline is the lexicographic
string order.  A record destructured as `{ item, result }` has `result`
undefined when the record carries an `error` field, and JavaScript's
`result && result.length > 0` keeps exactly the records whose `result` is a
nonempty array (`undefined` is falsy, `[]` fails `length > 0`). -/

/-- Sort-comparison relation of the aggregator: order records by item. -/
def leRec (a b : OutRec) : Prop := a.item ≤ b.item

instance : DecidableRel leRec :=
  fun a b => inferInstanceAs (Decidable (a.item ≤ b.item))

instance : IsTotal OutRec leRec := ⟨fun a b => le_total a.item b.item⟩

instance : IsTrans OutRec leRec := ⟨fun _ _ _ h₁ h₂ => le_trans h₁ h₂⟩

/-- The filter `result && result.length > 0` of the output loop. -/
def keepB (r : OutRec) : Bool :=
  match r.out with
  | .result ips => !ips.isEmpty
  | .error _ => false

/-- The data printed for one kept record: the hostname and its addresses. -/
def pairOf (r : OutRec) : String × List String :=
  (r.item, match r.out with | .result ips => ips | .error _ => [])

/-- The final mapping produced by the output loop of `main`: the records
sorted by item, filtered to those with a nonempty `result`, projected to
(hostname, addresses) pairs in print order. -/
def aggregate (recs : List OutRec) : List (String × List String) :=
  ((List.insertionSort leRec recs).filter keepB).map pairOf

/-- The two numbers of the printed summary: `subdomains.length` (total
candidates) and `count` (records that passed the filter). -/
def summaryCounts (total : Nat) (recs : List OutRec) : Nat × Nat :=
  (total, (aggregate recs).length)

theorem agg_perm (recs : List OutRec) :
    (aggregate recs).Perm ((recs.filter keepB).map pairOf) :=
  ((List.perm_insertionSort leRec recs).filter keepB).map pairOf

theorem agg_sorted (recs : List OutRec) :
    (aggregate recs).Sorted (fun p q : String × List String => p.1 ≤ q.1) := by
  have h₁ : (List.insertionSort leRec recs).Sorted leRec :=
    List.sorted_insertionSort leRec recs
  have h₂ : ((List.insertionSort leRec recs).filter keepB).Sorted leRec :=
    List.Pairwise.sublist (List.filter_sublist _) h₁
  exact List.Pairwise.map pairOf (fun _ _ hab => hab) h₂

theorem agg_count (recs : List OutRec) :
    (aggregate recs).length = (recs.filter keepB).length := by
  have := (agg_perm recs).length_eq
  simpa using this

theorem keepB_iff (r : OutRec) :
    keepB r = true ↔ ∃ ips, r.out = MOutcome.result ips ∧ ips ≠ [] := by
  cases r with
  | mk item out =>
    cases out with
    | result ips => simp [keepB]
    | error e => simp [keepB]

/-- Claim C5: the aggregator keeps exactly the records whose outcome is a
nonempty address list (error records and empty results are dropped), prints
them in alphabetical order of hostname, and reports the summary pair
(total candidates, successfully resolved). -/
theorem aggregate_spec (total : Nat) (recs : List OutRec) :
    (aggregate recs).Perm ((recs.filter keepB).map pairOf)
    ∧ (aggregate recs).Sorted (fun p q : String × List String => p.1 ≤ q.1)
    ∧ (∀ r : OutRec, keepB r = true ↔ ∃ ips, r.out = MOutcome.result ips ∧ ips ≠ [])
    ∧ summaryCounts total recs = (total, (recs.filter keepB).length) :=
  ⟨agg_perm recs, agg_sorted recs, keepB_iff,
    by simp [summaryCounts, agg_count recs]⟩

/-- Witness for C5 at the spec's concrete scenario shape: a resolved record
is kept, an empty result and an error record are dropped. -/
theorem aggregate_spec_witness :
    (aggregate [OutRec.mk "b.example.com" (MOutcome.result ["93.184.216.34"]),
      OutRec.mk "a.example.com" (MOutcome.result []),
      OutRec.mk "c.example.com" (MOutcome.error "ETIMEDOUT")]).Perm
      (([OutRec.mk "b.example.com" (MOutcome.result ["93.184.216.34"]),
        OutRec.mk "a.example.com" (MOutcome.result []),
        OutRec.mk "c.example.com" (MOutcome.error "ETIMEDOUT")].filter keepB).map pairOf) :=
  (aggregate_spec 3 _).1

/-! ## Order-(in)dependence of aggregation (claim C6) -/

/-- Strict version of the aggregator's output order, used to show that the
sorted output is unique when hostnames are pairwise distinct. -/
def ltPair (p q : String × List String) : Prop := p.1 < q.1

instance : IsAntisymm (String × List String) ltPair :=
  ⟨fun _ _ h₁ h₂ => absurd h₂ (lt_asymm h₁)⟩

/-- Claim C6 as stated is false: with two records for the same hostname the
stable sort preserves arrival order among equal keys, so permuting the input
changes the printed mapping.  Concrete counterexample: two records for
`"a.example.com"` with different address lists, in the two orders. -/
theorem aggregate_not_order_invariant :
    ([OutRec.mk "a.example.com" (MOutcome.result ["1.1.1.1"]),
      OutRec.mk "a.example.com" (MOutcome.result ["2.2.2.2"])] : List OutRec).Perm
      [OutRec.mk "a.example.com" (MOutcome.result ["2.2.2.2"]),
       OutRec.mk "a.example.com" (MOutcome.result ["1.1.1.1"])]
    ∧ aggregate [OutRec.mk "a.example.com" (MOutcome.result ["1.1.1.1"]),
        OutRec.mk "a.example.com" (MOutcome.result ["2.2.2.2"])]
      ≠ aggregate [OutRec.mk "a.example.com" (MOutcome.result ["2.2.2.2"]),
          OutRec.mk "a.example.com" (MOutcome.result ["1.1.1.1"])] := by
  constructor
  · exact List.Perm.swap _ _ _
  · have h₁ : aggregate [OutRec.mk "a.example.com" (MOutcome.result ["1.1.1.1"]),
        OutRec.mk "a.example.com" (MOutcome.result ["2.2.2.2"])]
        = [("a.example.com", ["1.1.1.1"]), ("a.example.com", ["2.2.2.2"])] := by
      simp [aggregate, List.insertionSort, List.orderedInsert, leRec, keepB, pairOf]
    have h₂ : aggregate [OutRec.mk "a.example.com" (MOutcome.result ["2.2.2.2"]),
        OutRec.mk "a.example.com" (MOutcome.result ["1.1.1.1"])]
        = [("a.example.com", ["2.2.2.2"]), ("a.example.com", ["1.1.1.1"])] := by
      simp [aggregate, List.insertionSort, List.orderedInsert, leRec, keepB, pairOf]
    rw [h₁, h₂]
    decide

theorem agg_fst_nodup (recs : List OutRec)
    (hnd : (recs.map OutRec.item).Nodup) :
    ((aggregate recs).map Prod.fst).Nodup := by
  have hperm : (List.insertionSort leRec recs).Perm recs :=
    List.perm_insertionSort leRec recs
  have h₁ : ((List.insertionSort leRec recs).map OutRec.item).Nodup :=
    ((hperm.map OutRec.item).nodup_iff).mpr hnd
  have hsub : ((List.insertionSort leRec recs).filter keepB).map OutRec.item
      <+ (List.insertionSort leRec recs).map OutRec.item :=
    List.Sublist.map OutRec.item (List.filter_sublist _)
  have h₂ : (((List.insertionSort leRec recs).filter keepB).map OutRec.item).Nodup :=
    List.Nodup.sublist hsub h₁
  have heq : (aggregate recs).map Prod.fst
      = ((List.insertionSort leRec recs).filter keepB).map OutRec.item := by
    simp only [aggregate, List.map_map]
    rfl
  rw [heq]
  exact h₂

theorem agg_pairwise_lt (recs : List OutRec)
    (hnd : (recs.map OutRec.item).Nodup) :
    (aggregate recs).Pairwise ltPair := by
  have hs : (aggregate recs).Pairwise (fun p q : String × List String => p.1 ≤ q.1) :=
    agg_sorted recs
  have hne : (aggregate recs).Pairwise (fun p q : String × List String => p.1 ≠ q.1) :=
    List.pairwise_map.mp (agg_fst_nodup recs hnd)
  exact (hs.and hne).imp (fun h => lt_of_le_of_ne h.1 h.2)

/-- Claim C6 amended: for records with pairwise-distinct hostnames — as the
pipeline produces, since `concurrencyMap` emits one record per element of the
deduplicated candidate list — aggregation is invariant under permutation of
the outcome pairs: the final mapping and the summary counts coincide. -/
theorem aggregate_perm_invariant (total : Nat) (recs recs' : List OutRec)
    (hp : recs.Perm recs') (hnd : (recs.map OutRec.item).Nodup) :
    aggregate recs = aggregate recs'
    ∧ summaryCounts total recs = summaryCounts total recs' := by
  have hnd' : (recs'.map OutRec.item).Nodup := ((hp.map OutRec.item).nodup_iff).mp hnd
  have hperm : (aggregate recs).Perm (aggregate recs') :=
    (agg_perm recs).trans (((hp.filter keepB).map pairOf).trans (agg_perm recs').symm)
  have heq : aggregate recs = aggregate recs' :=
    List.eq_of_perm_of_sorted hperm (agg_pairwise_lt recs hnd) (agg_pairwise_lt recs' hnd')
  exact ⟨heq, by simp [summaryCounts, heq]⟩

/-- Witness for the amended C6: a resolved and a failed record, in the two
arrival orders, aggregate identically. -/
theorem aggregate_perm_invariant_witness :
    aggregate [OutRec.mk "b.example.com" (MOutcome.result ["93.184.216.34"]),
      OutRec.mk "a.example.com" (MOutcome.error "ENOTFOUND")]
    = aggregate [OutRec.mk "a.example.com" (MOutcome.error "ENOTFOUND"),
      OutRec.mk "b.example.com" (MOutcome.result ["93.184.216.34"])] :=
  (aggregate_perm_invariant 2
    [OutRec.mk "b.example.com" (MOutcome.result ["93.184.216.34"]),
      OutRec.mk "a.example.com" (MOutcome.error "ENOTFOUND")]
    [OutRec.mk "a.example.com" (MOutcome.error "ENOTFOUND"),
      OutRec.mk "b.example.com" (MOutcome.result ["93.184.216.34"])]
    (List.Perm.swap _ _ _) (by decide)).1
